import Mathlib

/-!
Shallow embedding of the `stor` typed key-value access layer.

Byte strings are modelled as `List Nat` whose members are below 256 where
byte-ness matters.  Rust functions that can panic are modelled with an
explicit failure value (`Option`, or a dedicated outcome inductive) so that
a panic is distinguishable from a returned "no value".
-/

/-- Embeds `advance_key` from `src/lib.rs`: looks at the last byte of the
vector; if the vector is empty or the last byte is 255 it pushes a 0 byte,
otherwise it increments the last byte.  The mutation of the last element is
expressed by structural recursion to the end of the list. -/
def advance_key : List Nat → List Nat
  | [] => [0]
  | [b] => if b = 255 then [b, 0] else [b + 1]
  | b :: c :: rest => b :: advance_key (c :: rest)

/-- Embeds `retreat_key` from `src/lib.rs`: looks at the last byte; a last
byte 0 is popped, a nonzero last byte is decremented, and the empty vector
panics (modelled as `none`). -/
def retreat_key : List Nat → Option (List Nat)
  | [] => none
  | [b] => if b = 0 then some [] else some [b - 1]
  | b :: c :: rest => (retreat_key (c :: rest)).map (b :: ·)

/-- Executable strict byte-lexicographic order on byte strings, the order
RocksDB uses for its keyspace. -/
def lexLt : List Nat → List Nat → Bool
  | [], [] => false
  | [], _ :: _ => true
  | _ :: _, [] => false
  | a :: as, b :: bs => a < b || (a == b && lexLt as bs)

/-- Non-strict byte-lexicographic order. -/
def lexLe (a b : List Nat) : Bool := lexLt a b || a == b

/-- Embeds `std::collections::Bound`, the bound shape `range`/`rev_range`
receive for each end of a scan. -/
inductive RangeBound (α : Type) where
  | included (a : α)
  | excluded (a : α)
  | unbounded
deriving DecidableEq

/-- A raw entry of a column family: encoded key bytes paired with encoded
value bytes. -/
abbrev Entry := List Nat × List Nat

/-- Inserts an entry into a list that is sorted by key in ascending
byte-lexicographic order. -/
def insertByKey (e : Entry) : List Entry → List Entry
  | [] => [e]
  | x :: xs => if lexLe e.1 x.1 then e :: x :: xs else x :: insertByKey e xs

/-- Sorts the entries of a column family by key in ascending
byte-lexicographic order, the physical order RocksDB keeps them in. -/
def sortByKey (l : List Entry) : List Entry := l.foldr insertByKey []

/-- Models a RocksDB forward iterator over one column family:
`IteratorMode::From(start, Direction::Forward)` positions at the first key
not below `start` (`none` start is `IteratorMode::Start`), and
`set_iterate_upper_bound` cuts the scan at the first key not below `upper`
(the native bound is exclusive). -/
def iterForward (entries : List Entry) (start upper : Option (List Nat)) : List Entry :=
  let s := sortByKey entries
  let s := match start with
    | some k => s.filter (fun e => !(lexLt e.1 k))
    | none => s
  match upper with
  | some u => s.filter (fun e => lexLt e.1 u)
  | none => s

/-- Models a RocksDB reverse iterator over one column family:
`IteratorMode::From(start, Direction::Reverse)` positions at the last key
not above `start` (`none` start is `IteratorMode::End`), and
`set_iterate_lower_bound` cuts the scan at keys below `lower` (the native
lower bound is inclusive). -/
def iterReverse (entries : List Entry) (start lower : Option (List Nat)) : List Entry :=
  let s := (sortByKey entries).reverse
  let s := match start with
    | some k => s.filter (fun e => lexLe e.1 k)
    | none => s
  match lower with
  | some lo => s.filter (fun e => lexLe lo e.1)
  | none => s

/-- Embeds `RockTable::range` from `src/db/rocks.rs`: an inclusive end bound
sets the native exclusive upper bound to the advanced encoded key, an
exclusive end bound uses the encoded key as-is; an inclusive start begins at
the encoded key, an exclusive start begins at the advanced encoded key. -/
def RockTable.range {α : Type} (enc : α → List Nat) (lo hi : RangeBound α)
    (entries : List Entry) : List Entry :=
  let upper : Option (List Nat) :=
    match hi with
    | .included i => some (advance_key (enc i))
    | .excluded i => some (enc i)
    | .unbounded => none
  match lo with
  | .included i => iterForward entries (some (enc i)) upper
  | .excluded i => iterForward entries (some (advance_key (enc i))) upper
  | .unbounded => iterForward entries none upper

/-- Embeds `RockTable::rev_range` from `src/db/rocks.rs`: an inclusive start
bound becomes the native inclusive lower bound, an exclusive start bound
panics (modelled as `none`); an inclusive end bound starts the reverse
iterator at the encoded key, an exclusive end bound starts it at the
retreated encoded key (whose panic on an empty key is also `none`). -/
def RockTable.rev_range {α : Type} (enc : α → List Nat) (lo hi : RangeBound α)
    (entries : List Entry) : Option (List Entry) :=
  match lo with
  | .excluded _ => none
  | _ =>
    let lower : Option (List Nat) :=
      match lo with
      | .included i => some (enc i)
      | _ => none
    match hi with
    | .included i => some (iterReverse entries (some (enc i)) lower)
    | .excluded i =>
      match retreat_key (enc i) with
      | none => none
      | some k => some (iterReverse entries (some k) lower)
    | .unbounded => some (iterReverse entries none lower)

/-- Outcome of one `Iter::next` call: iterator exhausted, an engine error
propagated to the caller, a decoded entry, or a panic. -/
inductive NextOut (K D E : Type) where
  | done
  | err (e : E)
  | entry (k : K) (d : D)
  | panicked
deriving DecidableEq

/-- Embeds `Iter::next` from `src/db/rocks.rs`: the underlying iterator
yields nothing (done), or an engine error which is passed through, or a raw
key/value pair on which `KC::decode(..).unwrap()` and
`DC::decode(..).unwrap()` are called — a decode returning no value makes the
unwrap panic (modelled as `panicked`). -/
def Iter.next {K D E : Type} (kdec : List Nat → Option K) (ddec : List Nat → Option D)
    (it : List (Except E Entry)) : NextOut K D E :=
  match it with
  | [] => .done
  | .error e :: _ => .err e
  | .ok kv :: _ =>
    match kdec kv.1, ddec kv.2 with
    | some k, some d => .entry k d
    | _, _ => .panicked

/-- Decodes every raw entry of a finished scan the way draining the `Iter`
does: each key and value goes through `decode(..).unwrap()`, so one
undecodable buffer panics the whole drain (modelled as `none`). -/
def scanDecode {K D : Type} (kdec : List Nat → Option K) (ddec : List Nat → Option D) :
    List Entry → Option (List (K × D))
  | [] => some []
  | e :: rest =>
    match kdec e.1, ddec e.2 with
    | some k, some d => (scanDecode kdec ddec rest).map ((k, d) :: ·)
    | _, _ => none

/-- Embeds `RockTable::get` from `src/db/rocks.rs`: the engine fetch result
is propagated on error, and on success the optional raw value is decoded
with `DC::decode`, an undecodable buffer becoming `none` (no panic). -/
def RockTable.get {D E : Type} (ddec : List Nat → Option D)
    (fetched : Except E (Option (List Nat))) : Except E (Option D) :=
  match fetched with
  | .error e => .error e
  | .ok d => .ok (d.bind fun v => ddec v)

/-- Embeds the `Ignore` codec decode from `src/types.rs`: any buffer decodes
to the unit value. -/
def Ignore.decode (bytes : List Nat) : Option Unit :=
  match bytes with
  | _ => some ()

/-- Embeds the `Empty` codec decode from `src/types.rs`: only the empty
buffer decodes, to the unit value. -/
def Empty.decode (bytes : List Nat) : Option Unit :=
  if bytes.isEmpty then some () else none

/-- Single-byte key codec used by the range-containment claims, the
`OwnedType<u8>` instantiation: a key `n` in 0..=255 encodes to its one-byte
image. -/
def U8.encode (n : Nat) : List Nat := [n % 256]

/-- Decode side of the single-byte key codec: exactly one byte decodes, to
that byte. -/
def U8.decode (bytes : List Nat) : Option Nat :=
  match bytes with
  | [b] => some b
  | _ => none

/-- The concrete store of the range-containment claims: keys 1..5 encoded
through the single-byte codec (listed out of order; scans sort them), each
with an empty value buffer. -/
def testEntries : List Entry :=
  [([3], []), ([1], []), ([5], []), ([2], []), ([4], [])]

/-- The keyspace of a RocksDB transaction database: each column family name
is mapped to its list of raw entries.  RocksDB always has a column family
named `default` besides the ones created for tables. -/
abbrev RocksState := List (String × List Entry)

/-- The raw entries currently stored in a named column family. -/
def cfEntries (st : RocksState) (name : String) : List Entry :=
  match st.lookup name with
  | some l => l
  | none => []

/-- Rewrites the entries of one named column family, leaving the rest of the
keyspace untouched. -/
def updateCf (st : RocksState) (name : String) (f : List Entry → List Entry) : RocksState :=
  st.map (fun p => if p.1 = name then (p.1, f p.2) else p)

/-- Embeds `RockTable::delete` from `src/db/rocks.rs`: `delete_cf` removes
the encoded key from the table's column family; an absent key is not an
error. -/
def RockTable.delete (st : RocksState) (name : String) (key : List Nat) : RocksState :=
  updateCf st name (fun l => l.filter (fun e => !(e.1 == key)))

/-- Embeds `RockTable::clear` from `src/db/rocks.rs`: every key of the
table's own column family is collected through a full unbounded forward
range (the `ByteSlice` key codec decodes raw bytes to themselves), then each
collected key is deleted from that column family. -/
def RockTable.clear (st : RocksState) (name : String) : RocksState :=
  let items := RockTable.range (fun k : List Nat => k) .unbounded .unbounded (cfEntries st name)
  (items.map (·.1)).foldl (fun s k => RockTable.delete s name k) st

/-- Embeds `RockTable::len` from `src/db/rocks.rs`: the count drains
`txn.tx.iterator(IteratorMode::Start)`, which iterates the transaction's
default column family — the table's own `cf` handle is not consulted. -/
def RockTable.len (st : RocksState) : Nat :=
  (iterForward (cfEntries st "default") none none).length

/-- Models the engine point lookup `get_pinned_cf_opt` that `RockTable::get`
performs: the raw value stored under the encoded key in the table's column
family, if any. -/
def engineGet (st : RocksState) (name : String) (key : List Nat) : Option (List Nat) :=
  (cfEntries st name).lookup key

/-- Failing input for the `len` claim: the default column family holds one
entry while the table `t` holds two. -/
def c2State : RocksState :=
  [("default", [([9], [9])]), ("t", [([1], [10]), ([2], [20])])]

/-- A byte buffer together with the address it sits at, so that the
alignment checks of `src/types.rs` are observable. -/
structure Buffer where
  data : List Nat
  addr : Nat
deriving DecidableEq

/-- Embeds `aligned_to` from `src/types.rs`: the buffer's address is a
multiple of the required alignment. -/
def aligned_to (b : Buffer) (align : Nat) : Bool := b.addr % align == 0

/-- Outcome of a fixed-layout decode, keeping the source branch visible:
the zero-copy `LayoutVerified` path, the explicit byte-copy fallback, a
returned "no value", or a panic. -/
inductive DecodeRes (α : Type) where
  | zeroCopy (v : α)
  | copied (v : α)
  | missing
  | panicked
deriving DecidableEq

/-- The value a decode produced, if it produced one. -/
def DecodeRes.value {α : Type} : DecodeRes α → Option α
  | .zeroCopy v => some v
  | .copied v => some v
  | .missing => none
  | .panicked => none

/-- Models `zerocopy::LayoutVerified::<_, T>::new`: succeeds exactly when
the buffer length equals the byte size of `T` and the buffer address is
aligned for `T`, giving back the buffer's bytes as the typed view.  A value
of a `FromBytes + AsBytes` type is identified with its byte image. -/
def layoutNew (size align : Nat) (b : Buffer) : Option (List Nat) :=
  if b.data.length = size ∧ aligned_to b align then some b.data else none

/-- Splits a byte list into consecutive chunks of `n` bytes, the byte images
of the elements of a decoded slice. -/
def chunks (n : Nat) (l : List Nat) : List (List Nat) :=
  if l = [] ∨ n = 0 then [] else l.take n :: chunks n (l.drop n)
termination_by l.length
decreasing_by
  rename_i h
  push_neg at h
  have h1 : l.length ≠ 0 := fun hl => h.1 (List.eq_nil_of_length_eq_zero hl)
  have h2 : n ≠ 0 := h.2
  simp only [List.length_drop]
  omega

/-- Models `zerocopy::LayoutVerified::<_, [T]>::new_slice`: succeeds exactly
when the buffer length is a multiple of the element size and the buffer
address is aligned, giving back the element byte images. -/
def layoutNewSlice (elemSize align : Nat) (b : Buffer) : Option (List (List Nat)) :=
  if b.data.length % elemSize = 0 ∧ aligned_to b align then
    some (chunks elemSize b.data)
  else none

/-- Embeds `OwnedType::<T>::encode` from `src/types.rs`: `AsBytes::as_bytes`
borrows the value's byte image unchanged. -/
def OwnedType.encode (v : List Nat) : List Nat := v

/-- Embeds `OwnedType::<T>::decode` from `src/types.rs`: the aligned
`LayoutVerified` path is zero-copy; otherwise, when the length is exactly
the type's size and only the alignment is wrong, the bytes are copied into
a fresh aligned value; any other length is a decode failure. -/
def OwnedType.decode (size align : Nat) (b : Buffer) : DecodeRes (List Nat) :=
  match layoutNew size align b with
  | some v => .zeroCopy v
  | none =>
    if b.data.length = size ∧ ¬ aligned_to b align then .copied b.data
    else .missing

/-- Embeds `OwnedSlice::<T>::encode` from `src/types.rs`: the concatenated
byte images of the slice's elements, borrowed unchanged. -/
def OwnedSlice.encode (vs : List (List Nat)) : List Nat := vs.flatten

/-- Embeds `OwnedSlice::<T>::decode` from `src/types.rs`: the aligned
`LayoutVerified` slice path is zero-copy; otherwise, when the length is a
multiple of the element size and only the alignment is wrong, the bytes are
copied element by element into a fresh vector; any other length is a decode
failure. -/
def OwnedSlice.decode (elemSize align : Nat) (b : Buffer) : DecodeRes (List (List Nat)) :=
  match layoutNewSlice elemSize align b with
  | some v => .zeroCopy v
  | none =>
    if b.data.length % elemSize = 0 ∧ ¬ aligned_to b align then
      .copied (chunks elemSize b.data)
    else .missing

/-- Embeds `UnalignedType::<T>::encode` from `src/types.rs`: the value's
byte image, borrowed unchanged. -/
def UnalignedType.encode (v : List Nat) : List Nat := v

/-- Embeds `UnalignedSlice::<T>::encode` from `src/types.rs`: the
concatenated byte images of the slice's elements. -/
def UnalignedSlice.encode (vs : List (List Nat)) : List Nat := vs.flatten

/-- Embeds `UnalignedType::<T>::decode` from `src/types.rs`:
`LayoutVerified::new_unaligned` checks only that the length equals the
type's size (an `Unaligned` type is valid at any address), and the result is
cloned into an owned value. -/
def UnalignedType.decode (size : Nat) (b : Buffer) : Option (List Nat) :=
  if b.data.length = size then some b.data else none

/-- Embeds `UnalignedSlice::<T>::decode` from `src/types.rs`:
`LayoutVerified::new_slice_unaligned` checks only that the length is a
multiple of the element size, and the slice is copied into an owned
vector. -/
def UnalignedSlice.decode (elemSize : Nat) (b : Buffer) : Option (List (List Nat)) :=
  if b.data.length % elemSize = 0 then some (chunks elemSize b.data) else none

/-- Embeds `FixedSlice::<T, N>::encode` from `src/types.rs`: the array's
byte image, borrowed unchanged. -/
def FixedSlice.encode (v : List Nat) : List Nat := v

/-- Embeds `FixedSlice::<T, N>::decode` from `src/types.rs`: the aligned
`LayoutVerified` path over `[T; N]` is zero-copy; otherwise the code
asserts that the length equals the byte size of `[T; N]` — a length
mismatch panics — and then copies the bytes into a fresh array. -/
def FixedSlice.decode (size align : Nat) (b : Buffer) : DecodeRes (List Nat) :=
  match layoutNew size align b with
  | some v => .zeroCopy v
  | none =>
    if b.data.length = size then .copied b.data
    else .panicked

/-- Outcome of `paged`, instrumented with how many times the step function
was invoked: success after `calls` invocations, or the step function's error
after `calls` invocations. -/
inductive POut (E : Type) where
  | ok (calls : Nat)
  | err (e : E) (calls : Nat)
deriving DecidableEq

/-- The number of step-function invocations an outcome of `paged` made. -/
def POut.calls {E : Type} : POut E → Nat
  | .ok n => n
  | .err _ n => n

/-- Loop body of `paged` from `src/lib.rs`: `fun(&mut cur)?` either
propagates an error or yields the new cursor; if the new cursor equals
`old`, the loop returns success, otherwise `old` is overwritten with the
cursor and the loop repeats.  The in-place mutation is modelled by a pure
step function, and the unbounded `loop` by fuel: `none` means the fuel ran
out before the loop finished. -/
def pagedGo {T E : Type} [DecidableEq T] (f : T → Except E T) (old cur : T) :
    Nat → Option (POut E)
  | 0 => none
  | fuel + 1 =>
    match f cur with
    | .error e => some (.err e 1)
    | .ok c2 =>
      if old = c2 then some (.ok 1)
      else
        match pagedGo f c2 c2 fuel with
        | none => none
        | some (.ok n) => some (.ok (n + 1))
        | some (.err e n) => some (.err e (n + 1))

/-- Embeds `paged` from `src/lib.rs`: both `old` and `cur` start as clones
of the provided start value, then the loop body runs. -/
def paged {T E : Type} [DecidableEq T] (f : T → Except E T) (start : T)
    (fuel : Nat) : Option (POut E) :=
  pagedGo f start start fuel

theorem advance_key_ne_nil (b : List Nat) : advance_key b ≠ [] := by
  match b with
  | [] => simp [advance_key]
  | [x] =>
    by_cases h : x = 255 <;> simp [advance_key, h]
  | x :: y :: rest => simp [advance_key]

theorem lexLt_advance_key (b : List Nat) : lexLt b (advance_key b) = true := by
  induction b with
  | nil => simp [advance_key, lexLt]
  | cons x rest ih =>
    match rest with
    | [] =>
      by_cases h : x = 255 <;> simp [advance_key, h, lexLt]
    | y :: rest2 =>
      simp only [advance_key, lexLt]
      simp [ih]

theorem retreat_advance_key (b : List Nat) (hne : b ≠ []) :
    retreat_key (advance_key b) = some b := by
  induction b with
  | nil => exact absurd rfl hne
  | cons x rest ih =>
    match rest with
    | [] =>
      by_cases h : x = 255
      · simp [advance_key, h, retreat_key]
      · simp [advance_key, h, retreat_key]
    | y :: rest2 =>
      have hne2 : y :: rest2 ≠ [] := by simp
      have ih2 := ih hne2
      simp only [advance_key]
      match hadv : advance_key (y :: rest2), advance_key_ne_nil (y :: rest2) with
      | z :: zs, _ =>
        rw [hadv] at ih2
        simp only [retreat_key]
        rw [ih2]
        rfl

/-- C5: for any non-empty byte string `b` (bytes below 256) that is not
all-0xFF, `advance_key b` is lexicographically strictly greater than `b` and
`retreat_key (advance_key b) = some b`; moreover
`advance_key [0xFF] = [0xFF, 0x00]`, `retreat_key [0x00] = some []`, and
retreating the empty string fails (the modelled panic, `none`). -/
theorem advance_retreat_roundtrip :
    (∀ b : List Nat, b ≠ [] → (∀ x ∈ b, x < 256) → ¬ (∀ x ∈ b, x = 255) →
      lexLt b (advance_key b) = true ∧ retreat_key (advance_key b) = some b) ∧
    advance_key [255] = [255, 0] ∧
    retreat_key [0] = some [] ∧
    retreat_key [] = none := by
  refine ⟨fun b hne _ _ => ⟨lexLt_advance_key b, retreat_advance_key b hne⟩, ?_, ?_, ?_⟩
  · rfl
  · rfl
  · rfl

/-- Witness for C5 at the concrete byte string `[7]`. -/
theorem advance_retreat_roundtrip_witness :
    lexLt [7] (advance_key [7]) = true ∧ retreat_key (advance_key [7]) = some [7] :=
  advance_retreat_roundtrip.1 [7] (by decide) (by decide) (by decide)

/-- C9: `advance_key` is total over all byte strings: `advance_key [] = [0]`,
and for every byte string (empty, all-0xFF, or otherwise) the result is
lexicographically strictly greater than the input. -/
theorem advance_key_total_strictly_increases :
    advance_key [] = [0] ∧
    ∀ b : List Nat, (∀ x ∈ b, x < 256) → lexLt b (advance_key b) = true :=
  ⟨rfl, fun b _ => lexLt_advance_key b⟩

/-- Witness for C9 at the all-0xFF byte string `[255, 255]`. -/
theorem advance_key_total_strictly_increases_witness :
    lexLt [255, 255] (advance_key [255, 255]) = true :=
  advance_key_total_strictly_increases.2 [255, 255] (by decide)

/-- C1 counterexample: a scan entry whose value buffer is undecodable (the
`Empty` codec rejects the non-empty buffer `[1]`) makes `Iter::next` panic
through `.unwrap()`, instead of surfacing a no-value/failure value. -/
theorem iter_next_decode_failure_panics_cx :
    Empty.decode [1] = none ∧
    Iter.next (E := Unit) Ignore.decode Empty.decode [Except.ok ([], [1])] =
      NextOut.panicked ∧
    NextOut.panicked ≠ (NextOut.done : NextOut Unit Unit Unit) ∧
    NextOut.panicked ≠ (NextOut.err () : NextOut Unit Unit Unit) := by
  refine ⟨rfl, rfl, by decide, by decide⟩

/-- C1 amended: a `get` whose stored value is undecodable surfaces `none`
without a crash and engine errors on scans are propagated as failure values,
but a `range`/`rev_range` entry whose key or value bytes fail to decode
panics (the `.unwrap()` in `Iter::next`) rather than being propagated. -/
theorem iter_next_and_get_decode_behavior {K D E : Type}
    (kdec : List Nat → Option K) (ddec : List Nat → Option D)
    (rest : List (Except E Entry)) (k v : List Nat) (e : E) :
    ((kdec k = none ∨ ddec v = none) →
      Iter.next kdec ddec (Except.ok (k, v) :: rest) = NextOut.panicked) ∧
    (∀ kk dd, kdec k = some kk → ddec v = some dd →
      Iter.next kdec ddec (Except.ok (k, v) :: rest) = NextOut.entry kk dd) ∧
    Iter.next kdec ddec (Except.error e :: rest) = NextOut.err e ∧
    (ddec v = none →
      RockTable.get ddec (Except.ok (some v) : Except E (Option (List Nat))) =
        Except.ok none) ∧
    RockTable.get ddec (Except.error e : Except E (Option (List Nat))) = Except.error e := by
  refine ⟨?_, ?_, rfl, ?_, rfl⟩
  · rintro (hk | hd)
    · cases hd : ddec v <;> simp [Iter.next, hk, hd]
    · cases hk : kdec k <;> simp [Iter.next, hk, hd]
  · intro kk dd hk hd
    simp [Iter.next, hk, hd]
  · intro hd
    simp [RockTable.get, hd]

/-- Witness for C1 amended: the panic case at a concrete undecodable value
buffer. -/
theorem iter_next_and_get_decode_behavior_witness :
    Iter.next (E := Unit) Ignore.decode Empty.decode [Except.ok ([2], [1])] =
      NextOut.panicked :=
  (iter_next_and_get_decode_behavior Ignore.decode Empty.decode [] [2] [1] ()).1
    (Or.inr rfl)

/-- C2 (code bug evaluated): with the default column family holding one
entry and table `t` holding two, clearing `t` empties `t` (so `get` on a
previously-present key yields no value), yet `len` returns 1, because it
iterates the default column family instead of the table's. -/
theorem len_scans_default_cf_after_clear :
    RockTable.len (RockTable.clear c2State "t") = 1 ∧
    cfEntries (RockTable.clear c2State "t") "t" = [] ∧
    RockTable.get (E := Unit) Ignore.decode
      (Except.ok (engineGet (RockTable.clear c2State "t") "t" [1])) = Except.ok none ∧
    cfEntries c2State "t" ≠ [] := by
  refine ⟨by decide, by decide, rfl, by decide⟩

/-- C3 counterexample: with keys 1..5 stored under the order-preserving
single-byte codec, the reverse range over `(2, 4]` (excluded lower 2,
included upper 4) panics on the exclusive lower bound — modelled as `none` —
instead of returning the entries for keys 4 and 3. -/
theorem rev_range_exclusive_lower_panics_cx :
    RockTable.rev_range U8.encode (RangeBound.excluded 2) (RangeBound.included 4)
      testEntries = none := by
  rfl

/-- C3 amended: a reverse scan with an exclusive lower bound fails fast with
a panic rather than returning entries, so `(2, 4]` panics; the reverse scan
over `[3, 4]`, covering the same keys, returns exactly the entries for keys
4 then 3 in descending order. -/
theorem rev_range_fail_fast_and_inclusive_descending :
    RockTable.rev_range U8.encode (RangeBound.excluded 2) (RangeBound.included 4)
      testEntries = none ∧
    RockTable.rev_range U8.encode (RangeBound.included 3) (RangeBound.included 4)
      testEntries = some [([4], []), ([3], [])] ∧
    (RockTable.rev_range U8.encode (RangeBound.included 3) (RangeBound.included 4)
      testEntries).map (scanDecode U8.decode Ignore.decode) =
      some (some [(4, ()), (3, ())]) := by
  refine ⟨rfl, by decide, by decide⟩

/-- C6: with keys 1..5 stored under the order-preserving single-byte codec,
the forward range `[2, 4)` returns exactly the entries for keys 2 and 3 in
ascending order, and `[2, 4]` returns exactly the entries for keys 2, 3 and
4 in ascending order. -/
theorem forward_range_containment :
    scanDecode U8.decode Ignore.decode
      (RockTable.range U8.encode (RangeBound.included 2) (RangeBound.excluded 4)
        testEntries) = some [(2, ()), (3, ())] ∧
    scanDecode U8.decode Ignore.decode
      (RockTable.range U8.encode (RangeBound.included 2) (RangeBound.included 4)
        testEntries) = some [(2, ()), (3, ()), (4, ())] := by
  refine ⟨by decide, by decide⟩

theorem chunks_flatten (n : Nat) (hn : 0 < n) :
    ∀ vs : List (List Nat), (∀ c ∈ vs, c.length = n) → chunks n vs.flatten = vs := by
  intro vs
  induction vs with
  | nil => intro _; simp [chunks]
  | cons c cs ih =>
    intro h
    have hc : c.length = n := h c (by simp)
    have hcs : ∀ x ∈ cs, x.length = n := fun x hx => h x (by simp [hx])
    have hflat : c ++ cs.flatten ≠ [] := by
      cases c with
      | nil => rw [List.length_nil] at hc; omega
      | cons a as => simp
    rw [List.flatten_cons, chunks, if_neg (by push_neg; exact ⟨hflat, by omega⟩)]
    rw [← hc, List.take_left, List.drop_left, hc, ih hcs]

theorem flatten_length_mod (n : Nat) (vs : List (List Nat))
    (h : ∀ c ∈ vs, c.length = n) : vs.flatten.length % n = 0 := by
  induction vs with
  | nil => simp
  | cons c cs ih =>
    have hc : c.length = n := h c (by simp)
    have hcs := ih fun x hx => h x (by simp [hx])
    rw [List.flatten_cons, List.length_append, hc, Nat.add_mod, hcs]
    simp

/-- C4 counterexample: the `FixedSlice` decode on a buffer whose length (3)
is not the byte size of the array (2) panics through the length assertion —
it does not return the "no value" outcome. -/
theorem fixed_slice_length_mismatch_panics_cx :
    FixedSlice.decode 2 2 ⟨[1, 2, 3], 0⟩ = DecodeRes.panicked ∧
    (DecodeRes.panicked : DecodeRes (List Nat)) ≠ DecodeRes.missing := by
  exact ⟨by decide, by decide⟩

/-- C4 amended: decoding a buffer whose length is not exactly the byte size
of `[T; N]` panics via an assertion (not a returned none); only when the
length matches exactly does decode return a value, zero-copy when the buffer
is aligned and via an explicit byte copy when it is misaligned. -/
theorem fixed_slice_decode_cases (size align : Nat) (b : Buffer) :
    (b.data.length ≠ size → FixedSlice.decode size align b = DecodeRes.panicked) ∧
    (b.data.length = size → aligned_to b align →
      FixedSlice.decode size align b = DecodeRes.zeroCopy b.data) ∧
    (b.data.length = size → ¬ aligned_to b align →
      FixedSlice.decode size align b = DecodeRes.copied b.data) := by
  refine ⟨?_, ?_, ?_⟩
  · intro hlen
    simp [FixedSlice.decode, layoutNew, hlen]
  · intro hlen ha
    simp [FixedSlice.decode, layoutNew, hlen, ha]
  · intro hlen ha
    simp [FixedSlice.decode, layoutNew, hlen, ha]

/-- Witness for C4 amended: a correctly sized but misaligned buffer takes
the explicit-copy branch. -/
theorem fixed_slice_decode_cases_witness :
    FixedSlice.decode 2 2 ⟨[5, 6], 1⟩ = DecodeRes.copied [5, 6] :=
  (fixed_slice_decode_cases 2 2 ⟨[5, 6], 1⟩).2.2 rfl (by decide)

/-- C7: for the fixed-layout codecs (`OwnedType`, `OwnedSlice`), the
unaligned codecs (`UnalignedType`, `UnalignedSlice`) and the fixed-size
array codec (`FixedSlice`), decoding the encoding of any valid value gives
the value back, at every buffer address — aligned or deliberately
misaligned. -/
theorem codec_roundtrip_aligned_and_misaligned
    (size elemSize align addr : Nat) (v : List Nat) (vs : List (List Nat))
    (hv : v.length = size) (hvs : ∀ c ∈ vs, c.length = elemSize)
    (he : 0 < elemSize) :
    (OwnedType.decode size align ⟨OwnedType.encode v, addr⟩).value = some v ∧
    (OwnedSlice.decode elemSize align ⟨OwnedSlice.encode vs, addr⟩).value = some vs ∧
    UnalignedType.decode size ⟨UnalignedType.encode v, addr⟩ = some v ∧
    UnalignedSlice.decode elemSize ⟨UnalignedSlice.encode vs, addr⟩ = some vs ∧
    (FixedSlice.decode size align ⟨FixedSlice.encode v, addr⟩).value = some v := by
  have hmod : vs.flatten.length % elemSize = 0 := flatten_length_mod elemSize vs hvs
  have hchunks : chunks elemSize vs.flatten = vs := chunks_flatten elemSize he vs hvs
  simp only [List.length_flatten] at hmod
  refine ⟨?_, ?_, ?_, ?_, ?_⟩
  · by_cases ha : aligned_to ⟨v, addr⟩ align <;>
      simp [OwnedType.decode, OwnedType.encode, layoutNew, hv, ha, DecodeRes.value]
  · by_cases ha : aligned_to ⟨vs.flatten, addr⟩ align <;>
      simp [OwnedSlice.decode, OwnedSlice.encode, layoutNewSlice, hmod, hchunks, ha,
        DecodeRes.value]
  · simp [UnalignedType.decode, UnalignedType.encode, hv]
  · simp [UnalignedSlice.decode, UnalignedSlice.encode, hmod, hchunks]
  · by_cases ha : aligned_to ⟨v, addr⟩ align <;>
      simp [FixedSlice.decode, FixedSlice.encode, layoutNew, hv, ha, DecodeRes.value]

/-- Witness for C7 at a deliberately misaligned address: a 2-byte value and
a two-element slice of 2-byte elements placed at address 1 with alignment
2. -/
theorem codec_roundtrip_aligned_and_misaligned_witness :
    (OwnedType.decode 2 2 ⟨OwnedType.encode [3, 4], 1⟩).value = some [3, 4] ∧
    (OwnedSlice.decode 2 2 ⟨OwnedSlice.encode [[1, 2], [3, 4]], 1⟩).value =
      some [[1, 2], [3, 4]] :=
  let h := codec_roundtrip_aligned_and_misaligned 2 2 2 1 [3, 4] [[1, 2], [3, 4]]
    rfl (by decide) (by decide)
  ⟨h.1, h.2.1⟩

theorem pagedGo_pure {T : Type} [DecidableEq T] (g : T → T) :
    ∀ (N : Nat) (start : T) (fuel : Nat),
      (∀ i, i < N → g^[i + 1] start ≠ g^[i] start) →
      g^[N + 1] start = g^[N] start →
      N + 1 ≤ fuel →
      pagedGo (fun t => (Except.ok (g t) : Except Unit T)) start start fuel =
        some (POut.ok (N + 1)) := by
  intro N
  induction N with
  | zero =>
    intro start fuel _ hfix hfuel
    have hg : g start = start := by simpa using hfix
    match fuel, hfuel with
    | fu + 1, _ => simp [pagedGo, hg]
  | succ n ih =>
    intro start fuel hch hfix hfuel
    have h0 : g start ≠ start := by
      have := hch 0 (Nat.succ_pos n)
      simpa using this
    match fuel, hfuel with
    | fu + 1, hf =>
      have hch2 : ∀ i, i < n → g^[i + 1] (g start) ≠ g^[i] (g start) := by
        intro i hi
        have h := hch (i + 1) (by omega)
        rw [← Function.iterate_succ_apply, ← Function.iterate_succ_apply]
        exact h
      have hfix2 : g^[n + 1] (g start) = g^[n] (g start) := by
        rw [← Function.iterate_succ_apply, ← Function.iterate_succ_apply]
        exact hfix
      have ihr := ih (g start) fu hch2 hfix2 (by omega)
      simp only [pagedGo]
      rw [if_neg (fun h => h0 h.symm), ihr]

/-- C8: a step function that changes its cursor on each of its first N
invocations and leaves it unchanged on the (N+1)-th makes `paged` terminate
with success exactly after the (N+1)-th invocation. -/
theorem paged_fixed_point_terminates {T : Type} [DecidableEq T]
    (g : T → T) (start : T) (N fuel : Nat)
    (hch : ∀ i, i < N → g^[i + 1] start ≠ g^[i] start)
    (hfix : g^[N + 1] start = g^[N] start)
    (hfuel : N + 1 ≤ fuel) :
    paged (fun t => (Except.ok (g t) : Except Unit T)) start fuel =
      some (POut.ok (N + 1)) :=
  pagedGo_pure g N start fuel hch hfix hfuel

/-- Witness for C8: the step `t := min (t + 1) 2` from start 0 changes the
cursor twice and is fixed on the third call, so `paged` succeeds after
exactly 3 invocations. -/
theorem paged_fixed_point_terminates_witness :
    paged (fun t => (Except.ok (min (t + 1) 2) : Except Unit Nat)) 0 3 =
      some (POut.ok 3) :=
  paged_fixed_point_terminates (fun t => min (t + 1) 2) 0 2 3
    (by decide) (by decide) (by decide)

theorem pagedGo_calls_pos {T E : Type} [DecidableEq T] (f : T → Except E T) :
    ∀ (fuel : Nat) (old cur : T) (r : POut E),
      pagedGo f old cur fuel = some r → 1 ≤ r.calls := by
  intro fuel old cur r hr
  match fuel with
  | 0 => exact absurd hr (by simp [pagedGo])
  | fu + 1 =>
    simp only [pagedGo] at hr
    split at hr
    · cases hr; simp [POut.calls]
    · split at hr
      · cases hr; simp [POut.calls]
      · split at hr
        · exact absurd hr (by simp)
        · cases hr; simp [POut.calls]
        · cases hr; simp [POut.calls]

theorem pagedGo_error_prop {T E : Type} [DecidableEq T]
    (f : T → Except E T) (g : T → T) (e : E) :
    ∀ (k : Nat) (start : T) (fuel : Nat),
      (∀ i, i < k →
        f (g^[i] start) = Except.ok (g^[i + 1] start) ∧ g^[i + 1] start ≠ g^[i] start) →
      f (g^[k] start) = Except.error e →
      k + 1 ≤ fuel →
      pagedGo f start start fuel = some (POut.err e (k + 1)) := by
  intro k
  induction k with
  | zero =>
    intro start fuel _ herr hfuel
    have h0 : f start = Except.error e := by simpa using herr
    match fuel, hfuel with
    | fu + 1, _ => simp [pagedGo, h0]
  | succ n ih =>
    intro start fuel hch herr hfuel
    have h0 := hch 0 (Nat.succ_pos n)
    have hok : f start = Except.ok (g start) := by simpa using h0.1
    have hne : g start ≠ start := by simpa using h0.2
    match fuel, hfuel with
    | fu + 1, hf =>
      have hch2 : ∀ i, i < n →
          f (g^[i] (g start)) = Except.ok (g^[i + 1] (g start)) ∧
            g^[i + 1] (g start) ≠ g^[i] (g start) := by
        intro i hi
        have h := hch (i + 1) (by omega)
        rw [← Function.iterate_succ_apply, ← Function.iterate_succ_apply]
        exact h
      have herr2 : f (g^[n] (g start)) = Except.error e := by
        rw [← Function.iterate_succ_apply]
        exact herr
      have ihr := ih (g start) fu hch2 herr2 (by omega)
      simp only [pagedGo, hok]
      rw [if_neg (fun h => hne h.symm), ihr]

/-- C10: `paged` always invokes the step function at least once and the
baseline for the first fixed-point comparison is the start value: a first
invocation that leaves the cursor at the start value makes `paged` succeed
after exactly one invocation, and an invocation that returns an error makes
`paged` return that error immediately, with no further invocations. -/
theorem paged_first_call_and_error_propagation {T E : Type} [DecidableEq T]
    (f : T → Except E T) (g : T → T) (start : T) (e : E) (k fuel : Nat) :
    (f start = Except.ok start → paged f start (fuel + 1) = some (POut.ok 1)) ∧
    (f start = Except.error e → paged f start (fuel + 1) = some (POut.err e 1)) ∧
    (∀ r, paged f start (fuel + 1) = some r → 1 ≤ r.calls) ∧
    ((∀ i, i < k →
        f (g^[i] start) = Except.ok (g^[i + 1] start) ∧ g^[i + 1] start ≠ g^[i] start) →
      f (g^[k] start) = Except.error e → k + 1 ≤ fuel →
      paged f start fuel = some (POut.err e (k + 1))) := by
  refine ⟨?_, ?_, ?_, ?_⟩
  · intro h
    simp [paged, pagedGo, h]
  · intro h
    simp [paged, pagedGo, h]
  · intro r hr
    exact pagedGo_calls_pos f (fuel + 1) start start r hr
  · intro hch herr hfuel
    exact pagedGo_error_prop f g e k start fuel hch herr hfuel

/-- Witness for C10: a step function that errors on its first invocation
makes `paged` return that error after exactly one invocation. -/
theorem paged_first_call_and_error_propagation_witness :
    paged (fun _ => (Except.error 7 : Except Nat Nat)) 0 1 = some (POut.err 7 1) :=
  (paged_first_call_and_error_propagation (fun _ => Except.error 7) id 0 7 0 0).2.1 rfl
